import Mathlib

/-!
Verification of the services repository's core components against its
specification: the settlement rater's score computation
(crates/solver/src/settlement_rater.rs), the settlement calldata codec and
surplus/fee reconstruction (crates/autopilot/src/decoded_settlement.rs), the
recent-block cache (crates/shared/src/recent_block_cache.rs) and the alerter
loop (crates/alerter/src/main.rs).

Conventions of the embedding: `BigRational` becomes `ℚ` (exact rational
arithmetic in both), `U256` becomes `ℕ` with explicit saturation at
`2 ^ 256 - 1` where the source saturates, byte strings become `List ℕ`,
fallible code returns `Except`/`Option`, and the stateful cache and alerter
are embedded as explicit state-passing functions. Async environment inputs
(simulation outcomes, on-chain balances, HTTP results) are passed as explicit
arguments.
-/

/-! ## Settlement rater: payoff, optimal bid and score
Embedding of crates/solver/src/settlement_rater.rs. -/

/-- Error tags of the rater's fallible score pipeline: `invalidBid` stands for
the `anyhow!("Invalid bid")` of `compute_optimal_bid`,
`invalidSuccessProbability` for the `ensure!` of
`compute_score_with_success_probability`, `invalidScore` for the
`.context("Invalid score.")` on the conversion of the optimal score. -/
inductive RaterError
  | invalidBid
  | invalidSuccessProbability
  | invalidScore
deriving DecidableEq, Repr

/-- Largest value a 256-bit unsigned integer can hold. -/
def U256_MAX : ℕ := 2 ^ 256 - 1

/-- Modelled from the spec: `number_conversions::big_rational_to_u256` (the
crate is not part of the supplied source slice; §9 of the spec documents the
lossy uint256 boundary conversion). The conversion fails on a negative
rational or on one whose integer part does not fit 256 bits, truncating
toward zero otherwise (truncation of a non-negative rational is its floor). -/
def big_rational_to_u256 (x : ℚ) : Option ℕ :=
  if x < 0 then none
  else if 2 ^ 256 ≤ x.floor then none
  else some x.floor.toNat

/-- Embedding of `payoff` (settlement_rater.rs lines 340-363). -/
def payoff (score_reference objective probability_success cost_fail cap : ℚ) : ℚ :=
  let probability_fail := 1 - probability_success
  let payoff_success := min (objective - score_reference) cap
  let payoff_fail := -(min score_reference cap) - cost_fail
  probability_success * payoff_success + probability_fail * payoff_fail

/-- Embedding of `compute_optimal_bid` (settlement_rater.rs lines 296-338).
The second and third branch test the same condition, exactly as the
source does. -/
def compute_optimal_bid (objective probability_success cost_fail cap : ℚ) :
    Except RaterError ℚ :=
  let probability_fail := 1 - probability_success
  let payoff_obj_minus_cap :=
    payoff (objective - cap) objective probability_success cost_fail cap
  let payoff_cap := payoff cap objective probability_success cost_fail cap
  if 0 ≤ payoff_obj_minus_cap ∧ payoff_cap ≤ 0 then
    Except.ok (probability_success * objective - probability_fail * cost_fail)
  else if 0 ≤ payoff_obj_minus_cap ∧ 0 < payoff_cap then
    Except.ok (objective - probability_fail / probability_success * (cap + cost_fail))
  else if 0 ≤ payoff_obj_minus_cap ∧ 0 < payoff_cap then
    Except.ok (probability_success / probability_fail * cap - cost_fail)
  else
    Except.error RaterError.invalidBid

/-- The score variants of `model::solver_competition::Score`. -/
inductive Score
  | Solver (s : ℕ)
  | Discounted (s : ℕ)
  | Protocol (s : ℕ)
deriving DecidableEq, Repr

/-- Embedding of `compute_score_with_success_probability` (settlement_rater.rs
lines 278-294). The success probability is taken as an exact rational; the
`BigRational::from_float` step is the identity under this embedding since
every finite float in range is a rational. -/
def compute_score_with_success_probability
    (objective_value success_probability : ℚ) : Except RaterError Score :=
  if 0 ≤ success_probability ∧ success_probability ≤ 1 then
    let cost_fail : ℚ := 0
    let cap : ℚ := 1 / 2
    match compute_optimal_bid objective_value success_probability cost_fail cap with
    | Except.error e => Except.error e
    | Except.ok optimal_score =>
      match big_rational_to_u256 optimal_score with
      | some score => Except.ok (Score.Protocol score)
      | none => Except.error RaterError.invalidScore
  else
    Except.error RaterError.invalidSuccessProbability

/-! ### Helper lemmas about the optimal bid -/

/-- With zero failure cost and cap one half, the region where
`payoff(V - κ) < 0` and `payoff(κ) > 0` is empty: adding the two payoff
inequalities yields `κ < min (V - κ) κ`, contradicting `min _ κ ≤ κ`. -/
theorem payoff_region_empty (V p : ℚ) :
    ¬(payoff (V - 1 / 2) V p 0 (1 / 2) < 0 ∧ 0 < payoff (1 / 2) V p 0 (1 / 2)) := by
  rintro ⟨h1, h2⟩
  have hvv : V - (V - 1 / 2) = 1 / 2 := by ring
  simp only [payoff, hvv, min_self] at h1 h2
  have hm : min (V - 1 / 2) (1 / 2) ≤ 1 / 2 := min_le_right _ _
  set m := min (V - 1 / 2) (1 / 2) with hm_def
  nlinarith [h1, h2, hm]

/-- The optimal bid computation rejects exactly when `payoff(V - κ) < 0`: the
two middle branches of the conditional test the same condition, so the only
reachable branches are the first two and the rejection. -/
theorem compute_optimal_bid_error_iff (objective probability_success cost_fail cap : ℚ) :
    compute_optimal_bid objective probability_success cost_fail cap =
        Except.error RaterError.invalidBid ↔
      payoff (objective - cap) objective probability_success cost_fail cap < 0 := by
  simp only [compute_optimal_bid]
  split_ifs with h1 h2
  · exact iff_of_false (by simp) (not_lt.mpr h1.1)
  · exact iff_of_false (by simp) (not_lt.mpr h2.1)
  · refine iff_of_true rfl ?_
    by_contra hcon
    push_neg at hcon
    rcases lt_or_le 0 (payoff cap objective probability_success cost_fail cap) with hc | hc
    · exact h2 ⟨hcon, hc⟩
    · exact h1 ⟨hcon, hc⟩

/-- The only error the optimal bid computation can produce is `invalidBid`. -/
theorem compute_optimal_bid_error_eq (objective probability_success cost_fail cap : ℚ)
    (e : RaterError)
    (h : compute_optimal_bid objective probability_success cost_fail cap = Except.error e) :
    e = RaterError.invalidBid := by
  simp only [compute_optimal_bid] at h
  split_ifs at h
  simp_all

/-- C1: In `compute_optimal_bid` with failure cost `c = 0` and cap `κ = 0.5`,
for every objective `V` and success probability `p`, when `payoff(V-κ) < 0`
and `payoff(κ) > 0` the computed bid equals `p/(1-p) * κ - c`, and the
computation is rejected with `InvalidBid` exactly in the remaining case where
`payoff(V-κ) < 0` and `payoff(κ) ≤ 0`. (The first region is empty for these
parameters, which is why the rejection cases coincide.) -/
theorem claim_C1 (V p : ℚ) :
    (compute_optimal_bid V p 0 (1 / 2) = Except.error RaterError.invalidBid ↔
      payoff (V - 1 / 2) V p 0 (1 / 2) < 0 ∧ payoff (1 / 2) V p 0 (1 / 2) ≤ 0)
    ∧ (payoff (V - 1 / 2) V p 0 (1 / 2) < 0 ∧ 0 < payoff (1 / 2) V p 0 (1 / 2) →
      compute_optimal_bid V p 0 (1 / 2) = Except.ok (p / (1 - p) * (1 / 2) - 0)) := by
  constructor
  · rw [compute_optimal_bid_error_iff]
    constructor
    · intro h
      refine ⟨h, ?_⟩
      by_contra hc
      push_neg at hc
      exact payoff_region_empty V p ⟨h, hc⟩
    · exact fun h => h.1
  · intro h
    exact absurd h (payoff_region_empty V p)

/-- C2 counterexample: at objective `v = 10` and success probability
`p = 1/4 ∈ [0, 1]`, the score computation returns `Err` (the optimal bid is
rejected with `InvalidBid`), refuting that `Err` occurs only for
`p ∉ [0, 1]`. -/
theorem claim_C2_cex :
    compute_score_with_success_probability 10 (1 / 4) =
        Except.error RaterError.invalidBid
      ∧ (0 : ℚ) ≤ 1 / 4 ∧ (1 / 4 : ℚ) ≤ 1 := by
  refine ⟨?_, by norm_num, by norm_num⟩
  have hpay : payoff (10 - 1 / 2 : ℚ) 10 (1 / 4) 0 (1 / 2) < 0 := by
    norm_num [payoff, min_def]
  have hbid := (compute_optimal_bid_error_iff 10 (1 / 4) 0 (1 / 2)).mpr hpay
  simp only [compute_score_with_success_probability, hbid]
  norm_num

/-- C2 (amended): `compute_score_with_success_probability(v, p)` returns `Err`
iff `p ∉ [0, 1]`, or the optimal-bid computation rejects with `InvalidBid`
(which happens exactly when `payoff(v - κ) < 0`), or the computed optimal
score is not representable as a `U256`. -/
theorem claim_C2 (v p : ℚ) :
    (compute_score_with_success_probability v p).isOk = false ↔
      (¬(0 ≤ p ∧ p ≤ 1)
        ∨ payoff (v - 1 / 2) v p 0 (1 / 2) < 0
        ∨ ∃ b, compute_optimal_bid v p 0 (1 / 2) = Except.ok b
            ∧ big_rational_to_u256 b = none) := by
  by_cases hp : 0 ≤ p ∧ p ≤ 1
  · rcases hbid : compute_optimal_bid v p 0 (1 / 2) with e | b
    · have herr := compute_optimal_bid_error_eq v p 0 (1 / 2) e hbid
      subst herr
      have hpay := (compute_optimal_bid_error_iff v p 0 (1 / 2)).mp hbid
      have hsc : compute_score_with_success_probability v p =
          Except.error RaterError.invalidBid := by
        simp only [compute_score_with_success_probability, hbid, if_pos hp]
      rw [hsc]
      exact iff_of_true rfl (Or.inr (Or.inl hpay))
    · have hpay : ¬payoff (v - 1 / 2) v p 0 (1 / 2) < 0 := fun hlt => by
        have h2 := (compute_optimal_bid_error_iff v p 0 (1 / 2)).mpr hlt
        rw [hbid] at h2
        exact Except.noConfusion h2
      rcases hconv : big_rational_to_u256 b with _ | sc
      · have hsc : compute_score_with_success_probability v p =
            Except.error RaterError.invalidScore := by
          simp only [compute_score_with_success_probability, hbid, hconv, if_pos hp]
        rw [hsc]
        exact iff_of_true rfl (Or.inr (Or.inr ⟨b, rfl, hconv⟩))
      · have hsc : compute_score_with_success_probability v p =
            Except.ok (Score.Protocol sc) := by
          simp only [compute_score_with_success_probability, hbid, hconv, if_pos hp]
        rw [hsc]
        constructor
        · intro h
          simp [Except.isOk, Except.toBool] at h
        · rintro (h | h | ⟨b', hb', hcv⟩)
          · exact absurd hp h
          · exact absurd h hpay
          · injection hb' with hb''
            subst hb''
            rw [hconv] at hcv
            exact Option.noConfusion hcv
  · have hsc : compute_score_with_success_probability v p =
        Except.error RaterError.invalidSuccessProbability := by
      simp only [compute_score_with_success_probability, if_neg hp]
    rw [hsc]
    exact iff_of_true rfl (Or.inl hp)

/-! ## Settlement rater: rate_settlement
Embedding of `SettlementRater::rate_settlement` (settlement_rater.rs lines
157-275). The async environment is passed explicitly: the outcome each of the
two simulation passes would produce, the solver's on-chain balance and the
effective numeric inputs of the score computation. -/

/-- Which interactions a simulated settlement encodes
(`shared::http_solver::model::InternalizationStrategy`). -/
inductive InternalizationStrategy
  | encodeAllInteractions
  | skipInternalizableInteraction
deriving DecidableEq, Repr

/-- Outcome of `simulate_settlement`: the gas estimate on success, an abstract
execution-error identifier on revert (`SimulationResult` in the source). -/
inductive SimResult
  | ok (gas_estimate : ℕ)
  | err (e : ℕ)
deriving DecidableEq, Repr

/-- The solver-facing simulation error (`SimulationError`): an execution
failure carried over from a simulation, or the balance check's
`InsufficientBalance { needs, has }`. -/
inductive SimulationError
  | execution (e : ℕ)
  | insufficientBalance (needs has : ℕ)
deriving DecidableEq, Repr

/-- Embedding of `SimulationWithError`, reduced to the fields the claims
consult: which internalization pass produced the error, and the error. -/
structure SimulationWithError where
  internalization : InternalizationStrategy
  error : SimulationError
deriving DecidableEq, Repr

/-- The score variants a solver may attach to a settlement
(`shared::http_solver::model::Score`). -/
inductive HttpScore
  | solver (s : ℕ)
  | discount (d : ℕ)
deriving DecidableEq, Repr

/-- Environment inputs of one `rate_settlement` call: what each simulation
pass would return, the solver balance read from chain, the gas price after
the lossy float conversion, the settlement's objective-value inputs and its
solver-declared score data. -/
structure RateInputs where
  sim_uninternalized : SimResult
  sim_internalized : SimResult
  solver_balance : ℕ
  max_fee_per_gas : ℕ
  objective_value : ℚ
  surplus_given : ℚ
  solver_fees : ℚ
  earned_fees : ℚ
  settlement_score : Option HttpScore
  success_probability : Option ℚ
deriving DecidableEq, Repr

/-- Embedding of `RatedSettlement`, keeping the fields the rater fills. -/
structure RatedSettlement where
  id : ℕ
  surplus : ℚ
  earned_fees : ℚ
  solver_fees : ℚ
  gas_estimate : ℕ
  objective_value : ℚ
  score : Score
deriving DecidableEq, Repr

/-- Result of rating one settlement (`Rating` in the source). -/
inductive Rating
  | ok (r : RatedSettlement)
  | err (e : SimulationWithError)
deriving DecidableEq, Repr

/-- Embedding of `rate_settlement`: simulate without internalizations first
and abort on its failure; then simulate with internalizations; then check the
solver balance against `gas_limit.saturating_mul(max_fee_per_gas)`; then
compute the score (success-probability recomputation falls back to the base
score on error). `gas_limit_for_estimate` lives in settlement_submission
outside the supplied slice, so it is passed as a function argument. -/
def rate_settlement (gas_limit_for_estimate : ℕ → ℕ) (inp : RateInputs) (id : ℕ) : Rating :=
  match inp.sim_uninternalized with
  | SimResult.err e =>
    Rating.err { internalization := InternalizationStrategy.encodeAllInteractions,
                 error := SimulationError.execution e }
  | SimResult.ok _ =>
    match inp.sim_internalized with
    | SimResult.err e =>
      Rating.err { internalization := InternalizationStrategy.skipInternalizableInteraction,
                   error := SimulationError.execution e }
    | SimResult.ok gas_estimate =>
      let gas_limit := gas_limit_for_estimate gas_estimate
      let required_balance := min (gas_limit * inp.max_fee_per_gas) U256_MAX
      if inp.solver_balance < required_balance then
        Rating.err { internalization := InternalizationStrategy.skipInternalizableInteraction,
                     error := SimulationError.insufficientBalance required_balance
                       inp.solver_balance }
      else
        let objective_value := inp.objective_value
        let score :=
          match inp.settlement_score with
          | some (HttpScore.solver s) => Score.Solver s
          | some (HttpScore.discount d) =>
            Score.Discounted (((big_rational_to_u256 objective_value).getD 0) - d)
          | none => Score.Protocol ((big_rational_to_u256 objective_value).getD 0)
        let score :=
          match inp.success_probability with
          | some success_probability =>
            match compute_score_with_success_probability objective_value success_probability with
            | Except.ok s => s
            | Except.error _ => score
          | none => score
        Rating.ok { id
                    surplus := inp.surplus_given
                    earned_fees := inp.earned_fees
                    solver_fees := inp.solver_fees
                    gas_estimate
                    objective_value
                    score }

/-- Concrete rating inputs used by the C6 counterexample: both simulation
passes succeed, the internalized gas estimate is huge and the product
`gas_limit * max_fee` overflows 256 bits while the solver balance is the
largest `U256`. -/
def rate_inputs_cex : RateInputs :=
  { sim_uninternalized := SimResult.ok 1
    sim_internalized := SimResult.ok (2 ^ 255)
    solver_balance := 2 ^ 256 - 1
    max_fee_per_gas := 2
    objective_value := 0
    surplus_given := 0
    solver_fees := 0
    earned_fees := 0
    settlement_score := none
    success_probability := none }

/-- C6 counterexample: with `gas_limit_for_estimate` the identity, a gas
estimate of `2 ^ 255` and a max fee of `2`, the solver balance `2 ^ 256 - 1`
is strictly below the mathematical product `gas_limit * max_fee = 2 ^ 256`,
yet `rate_settlement` accepts the settlement because the source compares
against the saturating product. -/
theorem claim_C6_cex :
    (∃ r, rate_settlement (fun g => g) rate_inputs_cex 7 = Rating.ok r)
      ∧ rate_inputs_cex.solver_balance < (2 ^ 255) * rate_inputs_cex.max_fee_per_gas := by
  constructor
  · exact ⟨_, rfl⟩
  · norm_num [rate_inputs_cex]

/-- C6 (amended): `rate_settlement` simulates the settlement without
internalizations first and returns `Err` carrying that simulation failure
whenever the uninternalized pass fails (even when the internalized pass would
succeed, so no score is computed); when both passes succeed it returns
`Err(InsufficientBalance{needs, has})` exactly when the solver balance is
below the 256-bit saturating product
`min(gas_limit_for_estimate(gas_estimate) * max_fee_per_gas, 2^256 - 1)`,
with `needs` that product and `has` the balance, and otherwise returns
`Ok(RatedSettlement)`. -/
theorem claim_C6 (gas_limit_for_estimate : ℕ → ℕ) (inp : RateInputs) (id : ℕ) :
    (∀ e, inp.sim_uninternalized = SimResult.err e →
      rate_settlement gas_limit_for_estimate inp id =
        Rating.err { internalization := InternalizationStrategy.encodeAllInteractions,
                     error := SimulationError.execution e })
    ∧ (∀ gu gi, inp.sim_uninternalized = SimResult.ok gu →
        inp.sim_internalized = SimResult.ok gi →
        (((∃ needs has, rate_settlement gas_limit_for_estimate inp id =
            Rating.err { internalization := InternalizationStrategy.skipInternalizableInteraction,
                         error := SimulationError.insufficientBalance needs has }) ↔
          inp.solver_balance < min (gas_limit_for_estimate gi * inp.max_fee_per_gas) U256_MAX)
        ∧ (inp.solver_balance < min (gas_limit_for_estimate gi * inp.max_fee_per_gas) U256_MAX →
            rate_settlement gas_limit_for_estimate inp id =
              Rating.err { internalization := InternalizationStrategy.skipInternalizableInteraction,
                           error := SimulationError.insufficientBalance
                             (min (gas_limit_for_estimate gi * inp.max_fee_per_gas) U256_MAX)
                             inp.solver_balance })
        ∧ (¬inp.solver_balance < min (gas_limit_for_estimate gi * inp.max_fee_per_gas) U256_MAX →
            ∃ r, rate_settlement gas_limit_for_estimate inp id = Rating.ok r))) := by
  constructor
  · intro e he
    simp only [rate_settlement, he]
  · intro gu gi hu hi
    by_cases hb : inp.solver_balance < min (gas_limit_for_estimate gi * inp.max_fee_per_gas) U256_MAX
    · have hrun : rate_settlement gas_limit_for_estimate inp id =
          Rating.err { internalization := InternalizationStrategy.skipInternalizableInteraction,
                       error := SimulationError.insufficientBalance
                         (min (gas_limit_for_estimate gi * inp.max_fee_per_gas) U256_MAX)
                         inp.solver_balance } := by
        simp only [rate_settlement, hu, hi, if_pos hb]
      refine ⟨⟨fun _ => hb, fun _ => ⟨_, _, hrun⟩⟩, fun _ => hrun, fun hc => absurd hb hc⟩
    · have hrun : ∃ r, rate_settlement gas_limit_for_estimate inp id = Rating.ok r := by
        simp only [rate_settlement, hu, hi, if_neg hb]
        exact ⟨_, rfl⟩
      refine ⟨⟨?_, fun hc => absurd hc hb⟩, fun hc => absurd hc hb, fun _ => hrun⟩
      rintro ⟨needs, has, hr⟩
      rcases hrun with ⟨r, hr'⟩
      rw [hr] at hr'
      exact Rating.noConfusion hr'

/-! ## Surplus computation
Embedding of `buy_order_surplus` and `sell_order_surplus`
(decoded_settlement.rs lines 488-529). `BigRational` becomes `ℚ`;
`is_negative` is `· < 0` and `is_zero` is `· = 0`. -/

/-- Embedding of `buy_order_surplus`. -/
def buy_order_surplus (sell_token_price buy_token_price sell_amount_limit
    buy_amount_limit executed_buy_amount : ℚ) : Option ℚ :=
  if buy_amount_limit = 0 then none
  else
    let limit_sell_amount := executed_buy_amount * sell_amount_limit / buy_amount_limit
    let res := limit_sell_amount * sell_token_price - executed_buy_amount * buy_token_price
    if res < 0 then none else some res

/-- Embedding of `sell_order_surplus`. -/
def sell_order_surplus (sell_token_price buy_token_price sell_amount_limit
    buy_amount_limit executed_sell_amount : ℚ) : Option ℚ :=
  if sell_amount_limit = 0 then none
  else
    let limit_buy_amount := executed_sell_amount * buy_amount_limit / sell_amount_limit
    let res := executed_sell_amount * sell_token_price - limit_buy_amount * buy_token_price
    if res < 0 then none else some res

/-- C3 counterexample: a sell-kind surplus computation with `buy_limit = 0`
(and `sell_limit = 1 ≠ 0`) returns `Some 1`, not `None`, refuting that a zero
limit on either side yields `None`. -/
theorem claim_C3_cex : sell_order_surplus 1 1 1 0 1 = some 1 := by
  norm_num [sell_order_surplus]

/-- C3 (amended): a buy-kind surplus computation returns `None` when its buy
limit is `0`, and a sell-kind one returns `None` when its sell limit is `0`
(a zero limit on the opposite side does not force `None`); if the executed
amount is `0`, whatever surplus is computed is `0`. -/
theorem claim_C3 (sell_token_price buy_token_price sell_amount_limit buy_amount_limit : ℚ)
    (executed : ℚ) :
    buy_order_surplus sell_token_price buy_token_price sell_amount_limit 0 executed = none
    ∧ sell_order_surplus sell_token_price buy_token_price 0 buy_amount_limit executed = none
    ∧ (∀ s, buy_order_surplus sell_token_price buy_token_price sell_amount_limit
        buy_amount_limit 0 = some s → s = 0)
    ∧ (∀ s, sell_order_surplus sell_token_price buy_token_price sell_amount_limit
        buy_amount_limit 0 = some s → s = 0) := by
  refine ⟨by simp [buy_order_surplus], by simp [sell_order_surplus], ?_, ?_⟩
  · intro s hs
    simp only [buy_order_surplus] at hs
    split_ifs at hs
    simp only [zero_mul, zero_div, sub_zero, Option.some.injEq] at hs
    exact hs.symm
  · intro s hs
    simp only [sell_order_surplus] at hs
    split_ifs at hs
    simp only [zero_mul, zero_div, sub_zero, Option.some.injEq] at hs
    exact hs.symm

/-! ## Settlement calldata codec
Embedding of `DecodedSettlement::new` / `try_new`
(decoded_settlement.rs lines 179-242). Byte strings are `List ℕ`. The ABI
tokenizer (`web3::ethabi`, an external crate) is passed as an explicit
`decode_input` argument producing the tokenized `settle` tuple; `try_new`
performs the length bookkeeping, metadata split and field mapping exactly as
the source does. -/

/-- Order kinds (`model::order::OrderKind`). -/
inductive OrderKind
  | Sell
  | Buy
deriving DecidableEq, Repr

/-- Embedding of `TradeFlags`: a 256-bit flags word. -/
structure TradeFlags where
  val : ℕ
deriving DecidableEq, Repr

/-- Embedding of `TradeFlags::as_u8`: the least significant byte. -/
def TradeFlags.as_u8 (f : TradeFlags) : ℕ := f.val % 256

/-- Embedding of `TradeFlags::order_kind`: bit 0 distinguishes sell (0) from
buy (1). -/
def TradeFlags.order_kind (f : TradeFlags) : OrderKind :=
  if f.as_u8 &&& 1 = 0 then OrderKind.Sell else OrderKind.Buy

/-- Embedding of `TradeFlags::partially_fillable`: bit 1. -/
def TradeFlags.partially_fillable (f : TradeFlags) : Bool :=
  f.as_u8 &&& 2 ≠ 0

/-- Embedding of `DecodedTrade`. -/
structure DecodedTrade where
  sell_token_index : ℕ
  buy_token_index : ℕ
  receiver : ℕ
  sell_amount : ℕ
  buy_amount : ℕ
  valid_to : ℕ
  app_data : List ℕ
  fee_amount : ℕ
  flags : TradeFlags
  executed_amount : ℕ
  signature : List ℕ
deriving DecidableEq, Repr

/-- Embedding of `DecodedInteraction`. -/
structure DecodedInteraction where
  target : ℕ
  value : ℕ
  call_data : List ℕ
deriving DecidableEq, Repr

/-- The trade 11-tuple of `DecodedSettlementTokenized`. -/
abbrev TradeTuple : Type :=
  ℕ × ℕ × ℕ × ℕ × ℕ × ℕ × List ℕ × ℕ × ℕ × ℕ × List ℕ

/-- The interaction 3-tuple of `DecodedSettlementTokenized`. -/
abbrev InteractionTuple : Type := ℕ × ℕ × List ℕ

/-- Embedding of `DecodedSettlementTokenized`: the tokenized input tuple of
`GPv2Settlement.settle` ( tokens, clearing prices, trades, the three
interaction phases ). -/
abbrev DecodedSettlementTokenized : Type :=
  List ℕ × List ℕ × List TradeTuple ×
    (List InteractionTuple × List InteractionTuple × List InteractionTuple)

/-- Embedding of `DecodedSettlement`. -/
structure DecodedSettlement where
  tokens : List ℕ
  clearing_prices : List ℕ
  trades : List DecodedTrade
  interactions : List DecodedInteraction × List DecodedInteraction × List DecodedInteraction
  metadata : Option (List ℕ)
deriving DecidableEq, Repr

/-- Embedding of `DecodedSettlement::META_DATA_LEN`. -/
def META_DATA_LEN : ℕ := 8

/-- The 4-byte selector of `GPv2Settlement.settle` (13d79a0b, as the
source's own test calldata shows). -/
def settle_selector : List ℕ := [0x13, 0xd7, 0x9a, 0x0b]

/-- Field mapping of one tokenized trade into `DecodedTrade` (the closure in
`try_new`). -/
def trade_of_tuple (t : TradeTuple) : DecodedTrade :=
  { sell_token_index := t.1
    buy_token_index := t.2.1
    receiver := t.2.2.1
    sell_amount := t.2.2.2.1
    buy_amount := t.2.2.2.2.1
    valid_to := t.2.2.2.2.2.1
    app_data := t.2.2.2.2.2.2.1
    fee_amount := t.2.2.2.2.2.2.2.1
    flags := { val := t.2.2.2.2.2.2.2.2.1 }
    executed_amount := t.2.2.2.2.2.2.2.2.2.1
    signature := t.2.2.2.2.2.2.2.2.2.2 }

/-- Field mapping of one tokenized interaction (`From` impl for
`DecodedInteraction`). -/
def interaction_of_tuple (t : InteractionTuple) : DecodedInteraction :=
  { target := t.1, value := t.2.1, call_data := t.2.2 }

/-- The settlement `try_new` assembles from a tokenized tuple and the split-off
metadata tail: `metadata.try_into().ok().map(Bytes)` succeeds exactly when the
tail has `META_DATA_LEN` bytes. -/
def fromTokenized (d : DecodedSettlementTokenized) (metadata : List ℕ) : DecodedSettlement :=
  { tokens := d.1
    clearing_prices := d.2.1
    trades := d.2.2.1.map trade_of_tuple
    interactions :=
      (d.2.2.2.1.map interaction_of_tuple,
       d.2.2.2.2.1.map interaction_of_tuple,
       d.2.2.2.2.2.map interaction_of_tuple)
    metadata := if metadata.length = META_DATA_LEN then some metadata else none }

/-- Embedding of `DecodedSettlement::try_new` (lines 201-242): with metadata,
the `ensure!` rejects unless the post-selector data satisfies
`len % 32 == META_DATA_LEN`, and the last `META_DATA_LEN` bytes are split off
before tokenizing; without metadata zero bytes are split off. -/
def try_new (decode_input : List ℕ → Option DecodedSettlementTokenized)
    (data : List ℕ) (with_metadata : Bool) : Option DecodedSettlement :=
  match with_metadata with
  | true =>
    if data.length % 32 = META_DATA_LEN then
      (decode_input (data.take (data.length - META_DATA_LEN))).map
        fun d => fromTokenized d (data.drop (data.length - META_DATA_LEN))
    else none
  | false =>
    (decode_input (data.take (data.length - 0))).map
      fun d => fromTokenized d (data.drop (data.length - 0))

/-- Decoding error of `DecodedSettlement::new`. -/
inductive DecodingError
  | invalidSelector
  | other
deriving DecidableEq, Repr

/-- Embedding of `DecodedSettlement::new` (lines 184-199): strip the selector,
attempt the decode with metadata first, fall back to the decode without
metadata. -/
def DecodedSettlement_new (decode_input : List ℕ → Option DecodedSettlementTokenized)
    (input : List ℕ) : Except DecodingError DecodedSettlement :=
  if input.take 4 = settle_selector then
    let without_selector := input.drop 4
    match try_new decode_input without_selector true with
    | some decoded => Except.ok decoded
    | none =>
      match try_new decode_input without_selector false with
      | some decoded => Except.ok decoded
      | none => Except.error DecodingError.other
  else
    Except.error DecodingError.invalidSelector

/-- C4: `DecodedSettlement::new` attempts the metadata decode first and
accepts it only when the post-selector length is `8 mod 32`, falling back to
the metadata-less decode otherwise; for calldata carrying a valid 8-byte
trailing envelope, decoding yields `metadata = Some(last 8 bytes)` and every
other decoded field equals the result of decoding the same calldata with the
envelope stripped. -/
theorem claim_C4 (decode_input : List ℕ → Option DecodedSettlementTokenized)
    (body meta : List ℕ) (d : DecodedSettlementTokenized)
    (hbody : body.length % 32 = 0) (hmeta : meta.length = META_DATA_LEN)
    (hdec : decode_input body = some d) :
    DecodedSettlement_new decode_input (settle_selector ++ (body ++ meta)) =
      Except.ok (fromTokenized d meta)
    ∧ DecodedSettlement_new decode_input (settle_selector ++ body) =
      Except.ok (fromTokenized d [])
    ∧ (fromTokenized d meta).metadata = some meta
    ∧ (fromTokenized d []).metadata = none
    ∧ (fromTokenized d meta).tokens = (fromTokenized d []).tokens
    ∧ (fromTokenized d meta).clearing_prices = (fromTokenized d []).clearing_prices
    ∧ (fromTokenized d meta).trades = (fromTokenized d []).trades
    ∧ (fromTokenized d meta).interactions = (fromTokenized d []).interactions
    ∧ (∀ data, data.length % 32 ≠ META_DATA_LEN → try_new decode_input data true = none) := by
  have htake : ∀ rest : List ℕ, (settle_selector ++ rest).take 4 = settle_selector :=
    fun rest => List.take_left' rfl
  have hdrop : ∀ rest : List ℕ, (settle_selector ++ rest).drop 4 = rest :=
    fun rest => List.drop_left' rfl
  have h8 : META_DATA_LEN = 8 := rfl
  have hlen_mod : (body ++ meta).length % 32 = META_DATA_LEN := by
    rw [List.length_append, hmeta, h8]
    omega
  have hidx : (body ++ meta).length - META_DATA_LEN = body.length := by
    rw [List.length_append, hmeta, h8]
    omega
  have ht1 : try_new decode_input (body ++ meta) true = some (fromTokenized d meta) := by
    simp only [try_new, if_pos hlen_mod, hidx, List.take_left, List.drop_left, hdec]
    rfl
  have ht2f : try_new decode_input body false = some (fromTokenized d []) := by
    simp only [try_new, Nat.sub_zero, List.take_length, List.drop_length, hdec]
    rfl
  have ht2t : try_new decode_input body true = none := by
    have hne : ¬body.length % 32 = META_DATA_LEN := by
      rw [hbody, h8]
      decide
    simp only [try_new, if_neg hne]
  refine ⟨?_, ?_, ?_, ?_, rfl, rfl, rfl, rfl, ?_⟩
  · simp only [DecodedSettlement_new]
    rw [if_pos (htake _), hdrop, ht1]
  · simp only [DecodedSettlement_new]
    rw [if_pos (htake _), hdrop, ht2t, ht2f]
  · simp [fromTokenized, hmeta]
  · simp [fromTokenized, META_DATA_LEN]
  · intro data hmod
    simp only [try_new, if_neg hmod]

/-- Concrete decoder for the C4 witness: recognizes exactly one 32-byte body. -/
def decode_input_w : List ℕ → Option DecodedSettlementTokenized :=
  fun l => if l = List.replicate 32 7 then
    some ([1, 2], [10, 20], [], ([], [], []))
  else none

/-- C4 witness: the claim instantiated at a concrete 32-byte body with a
concrete 8-byte metadata envelope. -/
theorem claim_C4_witness :
    DecodedSettlement_new decode_input_w
        (settle_selector ++ (List.replicate 32 7 ++ List.replicate 8 42)) =
      Except.ok (fromTokenized ([1, 2], [10, 20], [], ([], [], [])) (List.replicate 8 42))
    ∧ DecodedSettlement_new decode_input_w (settle_selector ++ List.replicate 32 7) =
      Except.ok (fromTokenized ([1, 2], [10, 20], [], ([], [], [])) []) :=
  have h := claim_C4 decode_input_w (List.replicate 32 7) (List.replicate 8 42)
    ([1, 2], [10, 20], [], ([], [], [])) (by rfl) (by rfl) (by rfl)
  ⟨h.1, h.2.1⟩

/-! ## Trade / execution matching and fee folding
Embedding of `DecodedTrade::matches_execution` (decoded_settlement.rs lines
72-84), `DecodedSettlement::total_fees` (lines 262-293) and
`DecodedSettlement::order_executions` (lines 298-328). `self.fee(...)` reads
clearing prices and the external price oracle, so it is passed as an explicit
`fee` argument; the matching and consumption logic does not depend on it. -/

/-- Embedding of `OrderExecution`. -/
structure OrderExecution where
  order_uid : ℕ
  executed_solver_fee : Option ℕ
  sell_token : ℕ
  buy_token : ℕ
  sell_amount : ℕ
  buy_amount : ℕ
  executed_amount : ℕ
  signature : List ℕ
  solver_determines_fee : Bool
deriving DecidableEq, Repr

/-- Embedding of `DecodedTrade::matches_execution`. -/
def DecodedTrade.matches_execution (t : DecodedTrade) (order : OrderExecution) : Bool :=
  let matches_order := t.signature == order.signature
  let matches_exec := !t.flags.partially_fillable || (t.executed_amount == order.executed_amount)
  matches_order && matches_exec

/-- Embedding of the computed `Fees` record. -/
structure Fees where
  order : ℕ
  sell : ℕ
  native : ℕ
deriving DecidableEq, Repr

/-- Embedding of `Vec::swap_remove(i)`: the element at `i` is replaced by the
last element and the last slot is removed. -/
def swap_remove {α : Type _} (l : List α) (i : ℕ) : List α :=
  match l.getLast? with
  | none => []
  | some last => (l.set i last).dropLast

/-- Embedding of `DecodedSettlement::total_fees`: fold over the trades in
order; for each trade find the first matching execution (`position`), consume
it with `swap_remove`, and add its fee's native amount (0 when the fee cannot
be computed); an unmatched trade contributes nothing. -/
def total_fees (fee : DecodedTrade → OrderExecution → Option Fees) :
    List DecodedTrade → List OrderExecution → ℕ → ℕ
  | [], _, acc => acc
  | trade :: trades, orders, acc =>
    let i := orders.findIdx fun order => trade.matches_execution order
    if h : i < orders.length then
      let order := orders.get ⟨i, h⟩
      total_fees fee trades (swap_remove orders i)
        (acc + (match fee trade order with
                | some fees => fees.native
                | none => 0))
    else
      total_fees fee trades orders acc

/-- Embedding of `DecodedSettlement::order_executions`: same matching and
consumption as `total_fees`, but only executions with solver-computed fees
(limit orders) produce an output record, and fee failures are dropped. The
`swap_remove` happens before the `solver_determines_fee` check, exactly as in
the source. -/
def order_executions (fee : DecodedTrade → OrderExecution → Option Fees) :
    List DecodedTrade → List OrderExecution → List Fees
  | [], _ => []
  | trade :: trades, orders =>
    let i := orders.findIdx fun order => trade.matches_execution order
    if h : i < orders.length then
      let order := orders.get ⟨i, h⟩
      let rest := order_executions fee trades (swap_remove orders i)
      if !order.solver_determines_fee then rest
      else
        match fee trade order with
        | some fees => fees :: rest
        | none => rest
    else
      order_executions fee trades orders

/-- The trade/execution pairs consumed by one `total_fees` /
`order_executions` run, in trade order: the derived matching trace both
functions follow (their folds are proven against it below). -/
def matched_executions :
    List DecodedTrade → List OrderExecution → List (DecodedTrade × OrderExecution)
  | [], _ => []
  | trade :: trades, orders =>
    let i := orders.findIdx fun order => trade.matches_execution order
    if h : i < orders.length then
      (trade, orders.get ⟨i, h⟩) :: matched_executions trades (swap_remove orders i)
    else
      matched_executions trades orders

/-! ### swap_remove removes exactly the selected element -/

/-- Putting back the element `swap_remove` removed yields a permutation of the
original list. -/
theorem swap_remove_perm {α : Type _} :
    ∀ (l : List α) (i : ℕ) (h : i < l.length), (l.get ⟨i, h⟩ :: swap_remove l i).Perm l := by
  intro l
  induction l with
  | nil => intro i h; simp at h
  | cons a l ih =>
    intro i h
    cases i with
    | zero =>
      cases l with
      | nil => simp [swap_remove]
      | cons b t =>
        have hbt : (b :: t : List α) ≠ [] := by simp
        have hlast : (a :: b :: t).getLast? = some ((b :: t).getLast hbt) := by
          rw [List.getLast?_eq_getLast (a :: b :: t) (by simp), List.getLast_cons hbt]
        simp only [swap_remove, hlast, List.get, List.set]
        rw [List.dropLast_cons_of_ne_nil hbt]
        refine List.Perm.cons a ?_
        have h1 : ((b :: t).dropLast ++ [(b :: t).getLast hbt]).Perm
            ((b :: t).getLast hbt :: (b :: t).dropLast) := List.perm_append_singleton _ _
        rw [List.dropLast_append_getLast hbt] at h1
        exact h1.symm
    | succ i =>
      have hl : l ≠ [] := by
        intro he
        subst he
        simp at h
      have hi : i < l.length := by
        simpa using h
      have hlast : (a :: l).getLast? = some (l.getLast hl) := by
        rw [List.getLast?_eq_getLast (a :: l) (by simp), List.getLast_cons hl]
      have hset : (a :: l).set (i + 1) (l.getLast hl) = a :: l.set i (l.getLast hl) := rfl
      have hne : l.set i (l.getLast hl) ≠ [] := by
        intro he
        have := congrArg List.length he
        simp at this
        subst this
        simp at hi
      have hsr : swap_remove (a :: l) (i + 1) = a :: swap_remove l i := by
        simp only [swap_remove, hlast, hset]
        rw [List.dropLast_cons_of_ne_nil hne]
        rw [List.getLast?_eq_getLast l hl]
      have hget : (a :: l).get ⟨i + 1, h⟩ = l.get ⟨i, hi⟩ := rfl
      rw [hsr, hget]
      exact (List.Perm.swap a _ _).trans (List.Perm.cons a (ih i hi))

/-! ### The three folds follow the same matching trace -/

/-- `total_fees` equals the fee sum over the consumed trade/execution pairs. -/
theorem total_fees_eq_matched (fee : DecodedTrade → OrderExecution → Option Fees) :
    ∀ (trades : List DecodedTrade) (orders : List OrderExecution) (acc : ℕ),
      total_fees fee trades orders acc =
        acc + ((matched_executions trades orders).map fun p =>
          (match fee p.1 p.2 with
           | some fees => fees.native
           | none => 0)).sum := by
  intro trades
  induction trades with
  | nil => intro orders acc; simp [total_fees, matched_executions]
  | cons trade trades ih =>
    intro orders acc
    by_cases h : orders.findIdx (fun order => trade.matches_execution order) < orders.length
    · rw [total_fees, matched_executions]
      rw [dif_pos h, dif_pos h]
      rw [ih]
      simp [Nat.add_assoc]
    · rw [total_fees, matched_executions]
      rw [dif_neg h, dif_neg h]
      exact ih orders acc

/-- `order_executions` equals the matched trace filtered to solver-computed
fees, with failing fee computations dropped. -/
theorem order_executions_eq_matched (fee : DecodedTrade → OrderExecution → Option Fees) :
    ∀ (trades : List DecodedTrade) (orders : List OrderExecution),
      order_executions fee trades orders =
        (matched_executions trades orders).filterMap fun p =>
          if p.2.solver_determines_fee then fee p.1 p.2 else none := by
  intro trades
  induction trades with
  | nil => intro orders; simp [order_executions, matched_executions]
  | cons trade trades ih =>
    intro orders
    by_cases h : orders.findIdx (fun order => trade.matches_execution order) < orders.length
    · rw [order_executions, matched_executions]
      rw [dif_pos h, dif_pos h]
      rw [List.filterMap_cons]
      by_cases hs : (orders.get ⟨_, h⟩).solver_determines_fee
      · simp only [hs, if_true, Bool.not_true]
        cases hf : fee trade (orders.get ⟨_, h⟩) with
        | none => simp [ih]
        | some fees => simp [ih]
      · simp only [hs, if_false]
        simp only [Bool.not_false, eq_self_iff_true, if_true]
        simp only [Bool.not_eq_true] at hs
        simp [hs, ih]
    · rw [order_executions, matched_executions]
      rw [dif_neg h, dif_neg h]
      exact ih orders

/-- Each `OrderExecution` is consumed at most once: the multiset of consumed
executions is a sub-multiset of the supplied executions. -/
theorem matched_executions_subperm :
    ∀ (trades : List DecodedTrade) (orders : List OrderExecution),
      (Multiset.ofList ((matched_executions trades orders).map Prod.snd)) ≤
        Multiset.ofList orders := by
  intro trades
  induction trades with
  | nil => intro orders; simp [matched_executions]
  | cons trade trades ih =>
    intro orders
    by_cases h : orders.findIdx (fun order => trade.matches_execution order) < orders.length
    · rw [matched_executions, dif_pos h]
      have hperm := swap_remove_perm orders _ h
      calc (Multiset.ofList (((trade, orders.get ⟨_, h⟩) ::
              matched_executions trades
                (swap_remove orders
                  (orders.findIdx fun order => trade.matches_execution order))).map Prod.snd))
          = orders.get ⟨_, h⟩ ::ₘ
              Multiset.ofList ((matched_executions trades
                (swap_remove orders
                  (orders.findIdx fun order => trade.matches_execution order))).map Prod.snd) := by
            simp
        _ ≤ orders.get ⟨_, h⟩ ::ₘ
              Multiset.ofList (swap_remove orders
                (orders.findIdx fun order => trade.matches_execution order)) :=
            Multiset.cons_le_cons _ (ih _)
        _ = Multiset.ofList (orders.get ⟨_, h⟩ ::
              swap_remove orders (orders.findIdx fun order => trade.matches_execution order)) :=
            rfl
        _ = Multiset.ofList orders := Multiset.coe_eq_coe.mpr hperm
    · rw [matched_executions, dif_neg h]
      exact ih orders

/-- C5: a decoded trade matches an `OrderExecution` exactly when their
signature bytes are equal and, when the trade's flags mark it partially
fillable, the executed amounts are also equal; `total_fees` and
`order_executions` iterate trades in order along the matching trace
`matched_executions`, removing a matched execution from the candidate list,
so every `OrderExecution` is consumed at most once per call (the multiset of
consumed executions is a sub-multiset of the input). -/
theorem claim_C5 (fee : DecodedTrade → OrderExecution → Option Fees)
    (trades : List DecodedTrade) (orders : List OrderExecution) :
    (∀ (t : DecodedTrade) (o : OrderExecution),
      t.matches_execution o = true ↔
        (t.signature = o.signature ∧
          (t.flags.partially_fillable = true → t.executed_amount = o.executed_amount)))
    ∧ total_fees fee trades orders 0 =
        ((matched_executions trades orders).map fun p =>
          (match fee p.1 p.2 with
           | some fees => fees.native
           | none => 0)).sum
    ∧ order_executions fee trades orders =
        ((matched_executions trades orders).filterMap fun p =>
          if p.2.solver_determines_fee then fee p.1 p.2 else none)
    ∧ (Multiset.ofList ((matched_executions trades orders).map Prod.snd)) ≤
        Multiset.ofList orders := by
  refine ⟨?_, ?_, order_executions_eq_matched fee trades orders,
    matched_executions_subperm trades orders⟩
  · intro t o
    simp only [DecodedTrade.matches_execution, Bool.and_eq_true, Bool.or_eq_true,
      Bool.not_eq_true', beq_iff_eq]
    constructor
    · rintro ⟨hsig, hexec⟩
      refine ⟨hsig, fun hpf => ?_⟩
      rcases hexec with hn | he
      · rw [hpf] at hn
        exact absurd hn (by simp)
      · exact he
    · rintro ⟨hsig, hexec⟩
      refine ⟨hsig, ?_⟩
      by_cases hpf : t.flags.partially_fillable = true
      · exact Or.inr (hexec hpf)
      · exact Or.inl (by simpa using hpf)
  · rw [total_fees_eq_matched fee trades orders 0]
    exact Nat.zero_add _

/-! ## Recent-block cache
Embedding of crates/shared/src/recent_block_cache.rs. The `Mutexed` state's
`BTreeMap`/`HashMap` become point-wise functions, the LRU `SizedCache`
becomes a most-recent-first list with a capacity, and the fetcher is an
explicit function argument (`none` models a fetch whose retries were
exhausted). `CacheKey::for_value` is likewise an explicit argument. -/

/-- Embedding of the `Mutexed` cache state. -/
structure Mutexed (K V : Type) where
  recently_used : List K
  lru_capacity : ℕ
  cached_most_recently_at_block : K → Option ℕ
  entries : ℕ × K → Option (List V)
  last_update_block : ℕ
  maximum_recent_block_age : ℕ

/-- Embedding of `SizedCache::cache_set`: mark a key most recently used,
evicting beyond the capacity. -/
def cache_set {K V : Type} [DecidableEq K] (s : Mutexed K V) (key : K) : Mutexed K V :=
  { s with recently_used := (key :: s.recently_used.erase key).take s.lru_capacity }

/-- Embedding of `Mutexed::keys_of_recently_used_entries`. -/
def Mutexed.keys_of_recently_used_entries {K V : Type} (s : Mutexed K V) : List K :=
  s.recently_used

/-- The block a `Mutexed::get` reads from (the `block.or_else(..)` closure of
lines 339-346): an explicit block is used as is; `None` (a `Recent` read)
falls back to the key's most recently cached block, provided it is within
`maximum_recent_block_age` of `last_update_block`. -/
def Mutexed.get_block {K V : Type} (s : Mutexed K V) (key : K) (block : Option ℕ) :
    Option ℕ :=
  match block with
  | some b => some b
  | none =>
    match s.cached_most_recently_at_block key with
    | some b =>
      if s.last_update_block - b ≤ s.maximum_recent_block_age then some b else none
    | none => none

/-- Embedding of `Mutexed::get` (lines 338-352): read the entry at the
resolved block; a hit with values marks the key recently used. -/
def Mutexed.get {K V : Type} [DecidableEq K] (s : Mutexed K V) (key : K)
    (block : Option ℕ) : Option (List V) × Mutexed K V :=
  match Mutexed.get_block s key block with
  | none => (none, s)
  | some b =>
    match s.entries (b, key) with
    | some values =>
      (some values, if values.isEmpty then s else cache_set s key)
    | none => (none, s)

/-- Embedding of `Mutexed::insert` (lines 354-380): every key's
`cached_most_recently_at_block` becomes the max of its old value and the
block, every key gets a (reset) empty entry at the block, and each value is
pushed onto the entry of its own key at that block (pushes to an absent entry
are the source's unreachable `unwrap`). -/
def Mutexed.insert {K V : Type} [DecidableEq K] (for_value : V → K) (s : Mutexed K V)
    (block : ℕ) (keys : List K) (values : List V) : Mutexed K V :=
  let cached := fun k =>
    if k ∈ keys then
      some (match s.cached_most_recently_at_block k with
            | some old => max old block
            | none => block)
    else s.cached_most_recently_at_block k
  let entries0 : ℕ × K → Option (List V) := fun p =>
    if p.2 ∈ keys ∧ p.1 = block then some [] else s.entries p
  let entries1 := values.foldl
    (fun e v => fun p =>
      if p = (block, for_value v) then (e p).map (fun l => l ++ [v]) else e p)
    entries0
  { s with cached_most_recently_at_block := cached, entries := entries1 }

/-- Embedding of `Mutexed::remove_cached_blocks_older_than` (lines 382-391):
`split_off` at `(oldest_to_keep, K::first_ord())` keeps exactly the entries
whose block is at least `oldest_to_keep` (every key is `≥ first_ord`), and the
per-key index retains blocks `≥ oldest_to_keep`. -/
def Mutexed.remove_cached_blocks_older_than {K V : Type} (s : Mutexed K V)
    (oldest_to_keep : ℕ) : Mutexed K V :=
  { s with
    entries := fun p => if oldest_to_keep ≤ p.1 then s.entries p else none
    cached_most_recently_at_block := fun k =>
      match s.cached_most_recently_at_block k with
      | some b => if oldest_to_keep ≤ b then some b else none
      | none => none }

/-- Embedding of `RecentBlockCache::update_cache_at_block` (lines 183-202):
fetch the recently used keys (the fetched values arrive as the explicit
`found_values` argument), insert them at the new block, evict blocks older
than `new_block - (number_of_blocks_to_cache - 1)` (saturating), and set
`last_update_block` to the new block. -/
def update_cache_at_block {K V : Type} [DecidableEq K] (for_value : V → K)
    (number_of_blocks_to_cache : ℕ) (found_values : List V) (new_block : ℕ)
    (s : Mutexed K V) : Mutexed K V :=
  let keys := s.keys_of_recently_used_entries
  let m := Mutexed.insert for_value s new_block keys found_values
  let oldest_to_keep := new_block - (number_of_blocks_to_cache - 1)
  let m := m.remove_cached_blocks_older_than oldest_to_keep
  { m with last_update_block := new_block }

/-- Result of one `fetch` call: the returned values, the deduplicated missed
keys (one fetcher invocation each), and the state afterwards. -/
structure FetchResult (K V : Type) where
  values : List V
  misses : List K
  state : Mutexed K V

/-- The first phase of `fetch`: look every key up in order (under the lock),
splitting hits and misses. Misses keep ascending order of first occurrence,
which stands for the source's `HashSet` iteration order. -/
def fetch_scan {K V : Type} [DecidableEq K] (block : Option ℕ) :
    List K → Mutexed K V → List V × List K × Mutexed K V
  | [], st => ([], [], st)
  | key :: keys, st =>
    match Mutexed.get st key block with
    | (some values, st') =>
      (values ++ (fetch_scan block keys st').1,
       (fetch_scan block keys st').2.1,
       (fetch_scan block keys st').2.2)
    | (none, st') =>
      ((fetch_scan block keys st').1,
       key :: (fetch_scan block keys st').2.1,
       (fetch_scan block keys st').2.2)

/-- Embedding of `RecentBlockCache::fetch` (lines 242-301): partition into
hits and misses, return early when everything hit, otherwise fetch each missed
key once at the requested block (or at `last_update_block` for `Recent`),
insert the results (an errored fetch contributes no values but the key is
still inserted), and mark keys with data recently used. Chunking only splits
the same inserts into groups of 200, so it is not modelled separately. -/
def fetch {K V : Type} [DecidableEq K] (for_value : V → K)
    (fetcher : K → ℕ → Option (List V)) (keys : List K) (block : Option ℕ)
    (s : Mutexed K V) : FetchResult K V :=
  let scan := fetch_scan block keys s
  let cache_hits := scan.1
  let s1 := scan.2.2
  let cache_misses := scan.2.1.dedup
  if cache_misses.isEmpty then
    { values := cache_hits, misses := [], state := s1 }
  else
    let cache_miss_block := block.getD s1.last_update_block
    let fetched := cache_misses.flatMap fun k => (fetcher k cache_miss_block).getD []
    let found_keys := (fetched.map for_value).dedup
    let s2 := Mutexed.insert for_value s1 cache_miss_block cache_misses fetched
    let s3 := found_keys.foldl cache_set s2
    { values := cache_hits ++ fetched, misses := cache_misses, state := s3 }

/-! ### Cache state bookkeeping lemmas -/

/-- `Mutexed::get` only touches the LRU list: entries, the per-key index,
`last_update_block` and the age bound are unchanged. -/
theorem Mutexed.get_snd_fields {K V : Type} [DecidableEq K] (s : Mutexed K V) (key : K)
    (block : Option ℕ) :
    ((Mutexed.get s key block).2).entries = s.entries
    ∧ ((Mutexed.get s key block).2).cached_most_recently_at_block =
        s.cached_most_recently_at_block
    ∧ ((Mutexed.get s key block).2).last_update_block = s.last_update_block
    ∧ ((Mutexed.get s key block).2).maximum_recent_block_age = s.maximum_recent_block_age := by
  unfold Mutexed.get
  rcases hb : Mutexed.get_block s key block with _ | b
  · exact ⟨rfl, rfl, rfl, rfl⟩
  · rcases he : s.entries (b, key) with _ | vs
    · simp [he]
    · simp [he, cache_set, apply_ite Mutexed.entries,
        apply_ite Mutexed.cached_most_recently_at_block,
        apply_ite Mutexed.last_update_block, apply_ite Mutexed.maximum_recent_block_age]

/-- Reading at an explicit block returns exactly the entry stored there. -/
theorem Mutexed.get_fst_some {K V : Type} [DecidableEq K] (s : Mutexed K V) (key : K)
    (n : ℕ) : (Mutexed.get s key (some n)).1 = s.entries (n, key) := by
  unfold Mutexed.get
  have hb : Mutexed.get_block s key (some n) = some n := rfl
  rcases he : s.entries (n, key) with _ | vs
  · simp [hb, he]
  · simp [hb, he]

/-- `Mutexed::insert` keeps `last_update_block` and the age bound. -/
theorem Mutexed.insert_last_update {K V : Type} [DecidableEq K] (for_value : V → K)
    (s : Mutexed K V) (block : ℕ) (keys : List K) (values : List V) :
    (Mutexed.insert for_value s block keys values).last_update_block = s.last_update_block
    ∧ (Mutexed.insert for_value s block keys values).maximum_recent_block_age =
        s.maximum_recent_block_age := ⟨rfl, rfl⟩

/-- Concrete state for the C7 counterexample: `last_update_block = 5`. -/
def mutexed_c7cex : Mutexed ℕ ℕ :=
  { recently_used := []
    lru_capacity := 1
    cached_most_recently_at_block := fun _ => none
    entries := fun _ => none
    last_update_block := 5
    maximum_recent_block_age := 0 }

/-- C7 counterexample: `update_cache_at_block(3)` on a state whose
`last_update_block` is `5` lowers `last_update_block` to `3`, so the claim's
unconditional monotonicity fails (the source assigns the supplied block
without comparing it to the previous one). -/
theorem claim_C7_cex :
    (update_cache_at_block (fun v : ℕ => v) 1 [] 3 mutexed_c7cex).last_update_block <
      mutexed_c7cex.last_update_block := by
  decide

/-- C7 (amended): after `update_cache_at_block(n)`, every cache entry whose
cached block `b` satisfies `b + number_of_blocks_to_cache ≤ n` (that is,
`b < n - number_of_blocks_to_cache + 1`) is absent from the block-indexed
entries, and the per-key most-recently-cached index holds only blocks `b'`
with `n + 1 ≤ b' + number_of_blocks_to_cache`; `last_update_block` becomes
exactly `n`, and is untouched by `Mutexed::insert` and `Mutexed::get`, so it
is non-decreasing precisely when the successive update blocks are. -/
theorem claim_C7 {K V : Type} [DecidableEq K] (for_value : V → K)
    (number_of_blocks_to_cache : ℕ) (found_values : List V) (n b : ℕ) (k : K)
    (s : Mutexed K V) (blk : ℕ) (ks : List K) (vs : List V) (kq : K) (bq : Option ℕ)
    (h1 : 1 ≤ number_of_blocks_to_cache) (h2 : b + number_of_blocks_to_cache ≤ n) :
    (update_cache_at_block for_value number_of_blocks_to_cache found_values n s).entries
        (b, k) = none
    ∧ (∀ b', (update_cache_at_block for_value number_of_blocks_to_cache found_values n
          s).cached_most_recently_at_block k = some b' →
        n + 1 ≤ b' + number_of_blocks_to_cache)
    ∧ (update_cache_at_block for_value number_of_blocks_to_cache found_values n
        s).last_update_block = n
    ∧ (Mutexed.insert for_value s blk ks vs).last_update_block = s.last_update_block
    ∧ ((Mutexed.get s kq bq).2).last_update_block = s.last_update_block := by
  have hb : ¬(n - (number_of_blocks_to_cache - 1) ≤ b) := by omega
  refine ⟨?_, ?_, rfl, rfl, (Mutexed.get_snd_fields s kq bq).2.2.1⟩
  · show (Mutexed.remove_cached_blocks_older_than _ _).entries (b, k) = none
    unfold Mutexed.remove_cached_blocks_older_than
    exact if_neg hb
  · intro b' hb'
    have h3 : (Mutexed.remove_cached_blocks_older_than
        (Mutexed.insert for_value s n s.keys_of_recently_used_entries found_values)
        (n - (number_of_blocks_to_cache - 1))).cached_most_recently_at_block k =
        some b' := hb'
    unfold Mutexed.remove_cached_blocks_older_than at h3
    simp only at h3
    split at h3
    · split at h3
      · injection h3 with heq
        omega
      · cases h3
    · cases h3

/-- Concrete state for the C7 witness. -/
def mutexed_c7w : Mutexed ℕ ℕ :=
  { recently_used := []
    lru_capacity := 1
    cached_most_recently_at_block := fun k => if k = 3 then some 8 else none
    entries := fun p => if p = (8, 3) then some [5] else none
    last_update_block := 8
    maximum_recent_block_age := 0 }

/-- C7 witness: the amended claim instantiated at a concrete state, with
`number_of_blocks_to_cache = 2`, an update at block `10` and the entry cached
at block `8`. -/
theorem claim_C7_witness :
    (update_cache_at_block (fun v : ℕ => v) 2 [] 10 mutexed_c7w).entries (8, 3) = none
    ∧ (∀ b', (update_cache_at_block (fun v : ℕ => v) 2 [] 10
          mutexed_c7w).cached_most_recently_at_block 3 = some b' → 10 + 1 ≤ b' + 2)
    ∧ (update_cache_at_block (fun v : ℕ => v) 2 [] 10 mutexed_c7w).last_update_block = 10
    ∧ (Mutexed.insert (fun v : ℕ => v) mutexed_c7w 9 [3] []).last_update_block =
        mutexed_c7w.last_update_block
    ∧ ((Mutexed.get mutexed_c7w 3 none).2).last_update_block =
        mutexed_c7w.last_update_block :=
  claim_C7 (fun v : ℕ => v) 2 [] 10 8 3 mutexed_c7w 9 [3] [] 3 none
    (by decide) (by decide)

/-- The value-push loop of `Mutexed::insert`, applied point-wise: each entry
gains exactly the pushed values whose key matches, in order; a push to an
absent entry is dropped (the source's unreachable `unwrap`). -/
theorem foldl_push_apply {K V : Type} [DecidableEq K] (for_value : V → K) (block : ℕ) :
    ∀ (values : List V) (e : ℕ × K → Option (List V)) (p : ℕ × K),
      (values.foldl (fun e v => fun q =>
          if q = (block, for_value v) then (e q).map (fun l => l ++ [v]) else e q) e) p
        = ((e p).map fun l =>
            l ++ values.filter fun v => decide (p = (block, for_value v))) := by
  intro values
  induction values with
  | nil =>
    intro e p
    rcases hep : e p with _ | l <;> simp [hep]
  | cons v values ih =>
    intro e p
    rw [List.foldl_cons, ih]
    by_cases hp : p = (block, for_value v)
    · rw [if_pos hp]
      rcases hep : e p with _ | l <;> simp [hep, List.filter_cons, hp]
    · rw [if_neg hp]
      rcases hep : e p with _ | l <;> simp [hep, List.filter_cons, hp]

/-- Point-wise description of the entries after `Mutexed::insert`. -/
theorem Mutexed.insert_entries_apply {K V : Type} [DecidableEq K] (for_value : V → K)
    (s : Mutexed K V) (block : ℕ) (keys : List K) (values : List V) (p : ℕ × K) :
    (Mutexed.insert for_value s block keys values).entries p =
      ((if p.2 ∈ keys ∧ p.1 = block then some [] else s.entries p).map
        fun l => l ++ values.filter fun v => decide (p = (block, for_value v))) := by
  simp only [Mutexed.insert]
  exact foldl_push_apply for_value block values _ p

/-- Point-wise description of the per-key index after `Mutexed::insert`. -/
theorem Mutexed.insert_cached_apply {K V : Type} [DecidableEq K] (for_value : V → K)
    (s : Mutexed K V) (block : ℕ) (keys : List K) (values : List V) (k : K) :
    (Mutexed.insert for_value s block keys values).cached_most_recently_at_block k =
      if k ∈ keys then
        some (match s.cached_most_recently_at_block k with
              | some old => max old block
              | none => block)
      else s.cached_most_recently_at_block k := by
  simp only [Mutexed.insert]

/-- C10: `Mutexed::insert` never decreases a key's
`cached_most_recently_at_block` entry (it stores the maximum of the existing
and inserted block number), so a `Block::Recent` read that hits still returns
the values cached at the highest block for that key even after data for a
strictly older block was inserted. -/
theorem claim_C10 {K V : Type} [DecidableEq K] (for_value : V → K) (s : Mutexed K V)
    (k : K) (b1 blk : ℕ) (keys : List K) (values : List V)
    (hc : s.cached_most_recently_at_block k = some b1) :
    (k ∈ keys → (Mutexed.insert for_value s blk keys values).cached_most_recently_at_block k
        = some (max b1 blk))
    ∧ (k ∉ keys →
        (Mutexed.insert for_value s blk keys values).cached_most_recently_at_block k
          = some b1)
    ∧ (∃ b2, (Mutexed.insert for_value s blk keys
          values).cached_most_recently_at_block k = some b2 ∧ b1 ≤ b2)
    ∧ (blk < b1 →
        ((Mutexed.insert for_value s blk keys values).get k none).1 = (s.get k none).1) := by
  have hca := Mutexed.insert_cached_apply for_value s blk keys values k
  rw [hc] at hca
  have h1 : k ∈ keys →
      (Mutexed.insert for_value s blk keys values).cached_most_recently_at_block k
        = some (max b1 blk) := fun hk => by rw [hca, if_pos hk]
  have h2 : k ∉ keys →
      (Mutexed.insert for_value s blk keys values).cached_most_recently_at_block k
        = some b1 := fun hk => by rw [hca, if_neg hk]
  refine ⟨h1, h2, ?_, ?_⟩
  · by_cases hk : k ∈ keys
    · exact ⟨max b1 blk, h1 hk, le_max_left _ _⟩
    · exact ⟨b1, h2 hk, le_refl _⟩
  · intro hblk
    have hcached : (Mutexed.insert for_value s blk keys
        values).cached_most_recently_at_block k = some b1 := by
      by_cases hk : k ∈ keys
      · rw [h1 hk, max_eq_left (le_of_lt hblk)]
      · exact h2 hk
    have hgb : Mutexed.get_block (Mutexed.insert for_value s blk keys values) k none =
        Mutexed.get_block s k none := by
      unfold Mutexed.get_block
      rw [hcached, hc]
      rfl
    have hentry : (Mutexed.insert for_value s blk keys values).entries (b1, k) =
        s.entries (b1, k) := by
      rw [Mutexed.insert_entries_apply]
      have hcond : ¬((b1, k).2 ∈ keys ∧ (b1, k).1 = blk) := by
        rintro ⟨_, hbe⟩
        simp only at hbe
        omega
      rw [if_neg hcond]
      have hfil : (values.filter fun v => decide ((b1, k) = (blk, for_value v))) = [] := by
        apply List.filter_eq_nil_iff.mpr
        intro v _
        simp only [decide_eq_true_eq]
        rintro ⟨hbe, _⟩
        omega
      rw [hfil]
      rcases s.entries (b1, k) with _ | l <;> simp
    unfold Mutexed.get
    rw [hgb]
    rcases hgbv : Mutexed.get_block s k none with _ | bb
    · rfl
    · have hbb : bb = b1 := by
        have h4 := hgbv
        unfold Mutexed.get_block at h4
        simp only at h4
        split at h4
        · rename_i b0 hcc0
          rw [hc] at hcc0
          injection hcc0 with heq2
          split at h4
          · injection h4 with heq
            omega
          · cases h4
        · rename_i hcc0
          rw [hc] at hcc0
          cases hcc0
      subst hbb
      simp only
      rw [hentry]
      rcases hse : s.entries (bb, k) with _ | vs <;> simp [hse]

/-- Concrete state for the C10 witness: key `3` most recently cached at
block `6` with values `[9]`. -/
def mutexed_c10 : Mutexed ℕ ℕ :=
  { recently_used := []
    lru_capacity := 2
    cached_most_recently_at_block := fun k => if k = 3 then some 6 else none
    entries := fun p => if p = (6, 3) then some [9] else none
    last_update_block := 6
    maximum_recent_block_age := 2 }

/-- C10 witness: the claim instantiated at a concrete state, inserting data
for the older block `5` for the same key. -/
theorem claim_C10_witness :
    (3 ∈ [3] → (Mutexed.insert (fun v : ℕ => v) mutexed_c10 5 [3]
        [5]).cached_most_recently_at_block 3 = some (max 6 5))
    ∧ (3 ∉ [3] → (Mutexed.insert (fun v : ℕ => v) mutexed_c10 5 [3]
        [5]).cached_most_recently_at_block 3 = some 6)
    ∧ (∃ b2, (Mutexed.insert (fun v : ℕ => v) mutexed_c10 5 [3]
        [5]).cached_most_recently_at_block 3 = some b2 ∧ 6 ≤ b2)
    ∧ (5 < 6 →
        ((Mutexed.insert (fun v : ℕ => v) mutexed_c10 5 [3] [5]).get 3 none).1 =
          (mutexed_c10.get 3 none).1) :=
  claim_C10 (fun v : ℕ => v) mutexed_c10 3 6 5 [3] [5] (by decide)

/-! ### fetch: characterization lemmas -/

/-- The scan phase of `fetch` only touches the LRU list of the state. -/
theorem fetch_scan_state {K V : Type} [DecidableEq K] (block : Option ℕ) :
    ∀ (ks : List K) (st : Mutexed K V),
      ((fetch_scan block ks st).2.2).entries = st.entries
      ∧ ((fetch_scan block ks st).2.2).cached_most_recently_at_block =
          st.cached_most_recently_at_block
      ∧ ((fetch_scan block ks st).2.2).last_update_block = st.last_update_block
      ∧ ((fetch_scan block ks st).2.2).maximum_recent_block_age =
          st.maximum_recent_block_age := by
  intro ks
  induction ks with
  | nil => intro st; exact ⟨rfl, rfl, rfl, rfl⟩
  | cons key ks ih =>
    intro st
    rcases hget : Mutexed.get st key block with ⟨res, st'⟩
    have hf := Mutexed.get_snd_fields st key block
    rw [hget] at hf
    have ihs := ih st'
    rcases res with _ | vs
    · simp only [fetch_scan, hget]
      exact ⟨ihs.1.trans hf.1, ihs.2.1.trans hf.2.1, ihs.2.2.1.trans hf.2.2.1,
        ihs.2.2.2.trans hf.2.2.2⟩
    · simp only [fetch_scan, hget]
      exact ⟨ihs.1.trans hf.1, ihs.2.1.trans hf.2.1, ihs.2.2.1.trans hf.2.2.1,
        ihs.2.2.2.trans hf.2.2.2⟩

/-- Scanning at an explicit block returns, per key in order, the values cached
at that block, and misses exactly the keys with no entry at that block. -/
theorem fetch_scan_some {K V : Type} [DecidableEq K] (n : ℕ) :
    ∀ (ks : List K) (st : Mutexed K V),
      (fetch_scan (some n) ks st).1 =
        (ks.flatMap fun k => (st.entries (n, k)).getD [])
      ∧ (fetch_scan (some n) ks st).2.1 =
        (ks.filter fun k => (st.entries (n, k)).isNone) := by
  intro ks
  induction ks with
  | nil => intro st; exact ⟨rfl, rfl⟩
  | cons key ks ih =>
    intro st
    rcases hget : Mutexed.get st key (some n) with ⟨res, st'⟩
    have hfst : res = st.entries (n, key) := by
      have h := Mutexed.get_fst_some st key n
      rw [hget] at h
      exact h
    have hent : st'.entries = st.entries := by
      have h := (Mutexed.get_snd_fields st key (some n)).1
      rw [hget] at h
      exact h
    have ihs := ih st'
    rw [hent] at ihs
    rcases hres : st.entries (n, key) with _ | vs
    · rw [hres] at hfst
      subst hfst
      constructor
      · simp only [fetch_scan, hget, ihs.1, List.flatMap_cons, hres]
        simp
      · simp only [fetch_scan, hget, ihs.2, List.filter_cons, hres]
        simp
    · rw [hres] at hfst
      subst hfst
      constructor
      · simp only [fetch_scan, hget, ihs.1, List.flatMap_cons, hres]
        simp
      · simp only [fetch_scan, hget, ihs.2, List.filter_cons, hres]
        simp

/-- Marking keys recently used does not modify the cache contents. -/
theorem foldl_cache_set_state {K V : Type} [DecidableEq K] :
    ∀ (ks : List K) (st : Mutexed K V),
      ((ks.foldl cache_set st)).entries = st.entries
      ∧ ((ks.foldl cache_set st)).cached_most_recently_at_block =
          st.cached_most_recently_at_block
      ∧ ((ks.foldl cache_set st)).last_update_block = st.last_update_block
      ∧ ((ks.foldl cache_set st)).maximum_recent_block_age =
          st.maximum_recent_block_age := by
  intro ks
  induction ks with
  | nil => intro st; exact ⟨rfl, rfl, rfl, rfl⟩
  | cons k ks ih =>
    intro st
    rw [List.foldl_cons]
    exact ih (cache_set st k)

/-! ### Multiset bookkeeping for the fetch round-trip -/

/-- A sum of zeros is zero. -/
theorem sum_map_const_zero {K V : Type} :
    ∀ ks : List K, ((ks.map fun _ => (0 : Multiset V)).sum = 0) := by
  intro ks
  induction ks with
  | nil => rfl
  | cons k ks ih => simp [ih]

/-- A sum of indicator terms over a list avoiding the index is zero. -/
theorem sum_map_ite_not_mem {K V : Type} [DecidableEq K] (a : K) (m : Multiset V) :
    ∀ ks : List K, a ∉ ks →
      ((ks.map fun k => if k = a then m else 0).sum = 0) := by
  intro ks
  induction ks with
  | nil => intro _; rfl
  | cons k ks ih =>
    intro ha
    have hk : ¬(k = a) := fun he => ha (by simp [he])
    have ha' : a ∉ ks := fun he => ha (by simp [he])
    simp [hk, ih ha']

/-- A sum of indicator terms over a duplicate-free list containing the index
once is the indicated value. -/
theorem sum_map_ite_mem {K V : Type} [DecidableEq K] (a : K) (m : Multiset V) :
    ∀ ks : List K, ks.Nodup → a ∈ ks →
      ((ks.map fun k => if k = a then m else 0).sum = m) := by
  intro ks
  induction ks with
  | nil => intro _ ha; cases ha
  | cons k ks ih =>
    intro hnd ha
    have hk_notin : k ∉ ks := (List.nodup_cons.mp hnd).1
    have hnd' : ks.Nodup := (List.nodup_cons.mp hnd).2
    rcases List.mem_cons.mp ha with hak | haks
    · have ha' : a ∉ ks := by
        rw [hak]
        exact hk_notin
      simp [hak.symm, sum_map_ite_not_mem a m ks ha']
    · have hk : ¬(k = a) := fun he => hk_notin (he ▸ haks)
      simp [hk, ih hnd' haks]

/-- Distributing a list sum over point-wise multiset addition. -/
theorem sum_map_add_list {K V : Type} (f g : K → Multiset V) :
    ∀ ks : List K,
      ((ks.map fun k => f k + g k).sum = (ks.map f).sum + (ks.map g).sum) := by
  intro ks
  induction ks with
  | nil => simp
  | cons k ks ih =>
    simp only [List.map_cons, List.sum_cons, ih]
    exact add_add_add_comm _ _ _ _

/-- Partitioning a list of values by their keys over a duplicate-free covering
key list and re-concatenating gives back all the values (as a multiset). -/
theorem sum_map_filter_self {K V : Type} [DecidableEq K] (for_value : V → K) :
    ∀ (vs : List V) (ks : List K), ks.Nodup → (∀ v ∈ vs, for_value v ∈ ks) →
      ((ks.map fun k =>
          (↑(vs.filter fun v => decide (k = for_value v)) : Multiset V)).sum = ↑vs) := by
  intro vs
  induction vs with
  | nil =>
    intro ks _ _
    simp only [List.filter_nil, Multiset.coe_nil]
    exact sum_map_const_zero ks
  | cons v vs ih =>
    intro ks hnd hcov
    have hcovv : for_value v ∈ ks := hcov v (by simp)
    have hcov' : ∀ w ∈ vs, for_value w ∈ ks := fun w hw => hcov w (by simp [hw])
    have hterm : ∀ k, (↑((v :: vs).filter fun w => decide (k = for_value w)) : Multiset V) =
        (if k = for_value v then ({v} : Multiset V) else 0) +
          ↑(vs.filter fun w => decide (k = for_value w)) := by
      intro k
      rw [List.filter_cons]
      by_cases hk : k = for_value v
      · simp [hk]
      · simp [hk]
    rw [List.map_congr_left fun k _ => hterm k, sum_map_add_list,
      sum_map_ite_mem (for_value v) {v} ks hnd hcovv, ih ks hnd hcov']
    simp

/-- Terms vanishing off a predicate can be summed over the filtered list. -/
theorem sum_map_filter_support {K V : Type} (F : K → Multiset V) (p : K → Bool) :
    ∀ ks : List K, (∀ k ∈ ks, p k = false → F k = 0) →
      ((ks.map F).sum = ((ks.filter p).map F).sum) := by
  intro ks
  induction ks with
  | nil => intro _; rfl
  | cons k ks ih =>
    intro h0
    have h0' : ∀ k' ∈ ks, p k' = false → F k' = 0 := fun k' hk' => h0 k' (by simp [hk'])
    rw [List.map_cons, List.sum_cons, List.filter_cons]
    by_cases hp : p k = true
    · rw [if_pos hp, List.map_cons, List.sum_cons, ih h0']
    · have hpf : p k = false := by simpa using hp
      rw [h0 k (by simp) hpf, if_neg (by simp [hpf]), zero_add, ih h0']

/-- Splitting a keyed concatenation into a base part and per-key extras. -/
theorem flatMap_coe_split {K V : Type} (g h : K → List V) (extra : K → Multiset V) :
    ∀ keys : List K, (∀ k ∈ keys, (↑(g k) : Multiset V) = ↑(h k) + extra k) →
      (↑(keys.flatMap g) : Multiset V) = ↑(keys.flatMap h) + (keys.map extra).sum := by
  intro keys
  induction keys with
  | nil => intro _; simp
  | cons k ks ih =>
    intro hk
    rw [List.flatMap_cons, List.flatMap_cons, ← Multiset.coe_add, ← Multiset.coe_add,
      hk k (by simp), ih fun k' hk' => hk k' (by simp [hk']), List.map_cons, List.sum_cons]
    exact add_add_add_comm _ _ _ _

/-- Fetcher for the C8 counterexample and witness: every key yields itself. -/
def fetcher_c8 : ℕ → ℕ → Option (List ℕ) := fun k _ => some [k]

/-- Empty cache state for the C8 counterexample and witness. -/
def mutexed_c8 : Mutexed ℕ ℕ :=
  { recently_used := []
    lru_capacity := 2
    cached_most_recently_at_block := fun _ => none
    entries := fun _ => none
    last_update_block := 0
    maximum_recent_block_age := 0 }

/-- C8 counterexample: with the duplicated key list `[0, 0]` on an empty
cache, the first `fetch` at block `1` returns the fetched values once
(`[0]`), while the immediately repeated `fetch` hits the cache for each of
the two occurrences and returns `[0, 0]` — not the same values. -/
theorem claim_C8_cex :
    ¬((fetch (fun v : ℕ => v) fetcher_c8 [0, 0] (some 1)
        (fetch (fun v : ℕ => v) fetcher_c8 [0, 0] (some 1) mutexed_c8).state).values =
      (fetch (fun v : ℕ => v) fetcher_c8 [0, 0] (some 1) mutexed_c8).values) := by
  decide

/-- C8 (amended): for every `fetch(keys, Number(n))` with pairwise-distinct
keys, over a fetcher that returns values belonging to the requested key,
immediately followed by a second `fetch(keys, Number(n))` with no intervening
`update_cache`: the second call performs zero fetcher invocations (its miss
list is empty) and returns the same multiset of values as the first (the
interleaving of hit and miss values can differ); in particular every
requested key — also one for which the first fetch found no values — occupies
a cache slot after the first call and counts as a hit on the second. -/
theorem claim_C8 {K V : Type} [DecidableEq K] (for_value : V → K)
    (fetcher : K → ℕ → Option (List V)) (keys : List K) (n : ℕ) (s : Mutexed K V)
    (hnd : keys.Nodup)
    (hfv : ∀ k b v, v ∈ (fetcher k b).getD [] → for_value v = k) :
    (fetch for_value fetcher keys (some n)
        (fetch for_value fetcher keys (some n) s).state).misses = []
    ∧ (↑((fetch for_value fetcher keys (some n)
          (fetch for_value fetcher keys (some n) s).state).values) : Multiset V) =
        ↑((fetch for_value fetcher keys (some n) s).values)
    ∧ ∀ k ∈ keys,
        ((fetch for_value fetcher keys (some n) s).state.entries (n, k)).isSome = true := by
  have hscan := fetch_scan_some n keys s
  have hstate := fetch_scan_state (some n) keys s
  by_cases hemp : (keys.filter fun k => (s.entries (n, k)).isNone) = []
  · -- every key already hits: the first call inserts nothing
    have hmiss1 : (fetch_scan (some n) keys s).2.1 = [] := hscan.2.trans hemp
    have hr1 : fetch for_value fetcher keys (some n) s =
        { values := (fetch_scan (some n) keys s).1, misses := [],
          state := (fetch_scan (some n) keys s).2.2 } := by
      simp only [fetch, hmiss1]
      rfl
    have hs1e : (fetch_scan (some n) keys s).2.2.entries = s.entries := hstate.1
    have hsome : ∀ k ∈ keys, ((s.entries (n, k)).isSome = true) := by
      intro k hk
      have h := List.filter_eq_nil_iff.mp hemp k hk
      rcases ho : s.entries (n, k) with _ | l
      · exact absurd (by rw [ho]; rfl) h
      · rfl
    have hscan2 := fetch_scan_some n keys (fetch_scan (some n) keys s).2.2
    rw [hs1e] at hscan2
    have hmiss2 : (fetch_scan (some n) keys (fetch_scan (some n) keys s).2.2).2.1 = [] :=
      hscan2.2.trans hemp
    have hr2 : fetch for_value fetcher keys (some n) (fetch_scan (some n) keys s).2.2 =
        { values := (fetch_scan (some n) keys (fetch_scan (some n) keys s).2.2).1,
          misses := [],
          state := (fetch_scan (some n) keys (fetch_scan (some n) keys s).2.2).2.2 } := by
      simp only [fetch, hmiss2]
      rfl
    refine ⟨?_, ?_, ?_⟩
    · rw [hr1]
      simp only
      rw [hr2]
    · rw [hr1]
      simp only
      rw [hr2]
      simp only
      rw [hscan2.1, hscan.1]
    · intro k hk
      rw [hr1]
      simp only
      rw [hs1e]
      exact hsome k hk
  · -- at least one key misses: the first call fetches and inserts
    have hmiss1 : (fetch_scan (some n) keys s).2.1 =
        (keys.filter fun k => (s.entries (n, k)).isNone) := hscan.2
    have hndm : (keys.filter fun k => (s.entries (n, k)).isNone).Nodup := hnd.filter _
    have hdedup : (keys.filter fun k => (s.entries (n, k)).isNone).dedup =
        (keys.filter fun k => (s.entries (n, k)).isNone) := List.dedup_eq_self.mpr hndm
    have hne : ¬((keys.filter fun k => (s.entries (n, k)).isNone).isEmpty = true) := by
      simp [List.isEmpty_iff, hemp]
    have hr1 : fetch for_value fetcher keys (some n) s =
        { values := (fetch_scan (some n) keys s).1 ++
            ((keys.filter fun k => (s.entries (n, k)).isNone).flatMap fun k =>
              (fetcher k n).getD []),
          misses := keys.filter fun k => (s.entries (n, k)).isNone,
          state := ((((keys.filter fun k => (s.entries (n, k)).isNone).flatMap fun k =>
              (fetcher k n).getD []).map for_value).dedup).foldl cache_set
            (Mutexed.insert for_value (fetch_scan (some n) keys s).2.2 n
              (keys.filter fun k => (s.entries (n, k)).isNone)
              ((keys.filter fun k => (s.entries (n, k)).isNone).flatMap fun k =>
                (fetcher k n).getD [])) } := by
      simp only [fetch, hmiss1, hdedup]
      rw [if_neg hne]
      rfl
    have hs1e : (fetch_scan (some n) keys s).2.2.entries = s.entries := hstate.1
    have hcov : ∀ v ∈ ((keys.filter fun k => (s.entries (n, k)).isNone).flatMap fun k =>
        (fetcher k n).getD []), for_value v ∈ (keys.filter fun k =>
          (s.entries (n, k)).isNone) := by
      intro v hv
      rcases List.mem_flatMap.mp hv with ⟨k', hk', hv'⟩
      rw [hfv k' n v hv']
      exact hk'
    have hentries : ∀ k ∈ keys,
        (fetch for_value fetcher keys (some n) s).state.entries (n, k) =
          (if (s.entries (n, k)).isNone = true
            then some (((keys.filter fun k => (s.entries (n, k)).isNone).flatMap fun k =>
              (fetcher k n).getD []).filter fun v => decide (k = for_value v))
            else s.entries (n, k)) := by
      intro k hk
      rw [hr1]
      simp only
      rw [(foldl_cache_set_state _ _).1, Mutexed.insert_entries_apply]
      by_cases hNone : (s.entries (n, k)).isNone = true
      · have hkm : k ∈ (keys.filter fun k => (s.entries (n, k)).isNone) :=
          List.mem_filter.mpr ⟨hk, hNone⟩
        rw [if_pos ⟨hkm, rfl⟩, if_pos hNone]
        simp only [Option.map_some', List.nil_append]
        congr 1
        apply List.filter_congr
        intro v _
        simp [Prod.ext_iff]
      · have hkm : k ∉ (keys.filter fun k => (s.entries (n, k)).isNone) :=
          fun hmem => hNone (List.mem_filter.mp hmem).2
        rw [if_neg (fun hcond => hkm hcond.1), if_neg hNone, hs1e]
        have hfil : (((keys.filter fun k => (s.entries (n, k)).isNone).flatMap fun k =>
            (fetcher k n).getD []).filter fun v => decide ((n, k) = (n, for_value v))) =
              [] := by
          apply List.filter_eq_nil_iff.mpr
          intro v hv
          simp only [decide_eq_true_eq, Prod.mk.injEq]
          rintro ⟨_, hkv⟩
          exact hkm (hkv ▸ hcov v hv)
        rw [hfil]
        rcases ho : s.entries (n, k) with _ | l
        · exact absurd (by rw [ho]; rfl) hNone
        · simp
    have hsome1 : ∀ k ∈ keys,
        ((fetch for_value fetcher keys (some n) s).state.entries (n, k)).isSome = true := by
      intro k hk
      rw [hentries k hk]
      by_cases hNone : (s.entries (n, k)).isNone = true
      · rw [if_pos hNone]
        rfl
      · rw [if_neg hNone]
        rcases ho : s.entries (n, k) with _ | l
        · exact absurd (by rw [ho]; rfl) hNone
        · rfl
    have hscan2 := fetch_scan_some n keys (fetch for_value fetcher keys (some n) s).state
    have hfil2 : (keys.filter fun k =>
        (((fetch for_value fetcher keys (some n) s).state).entries (n, k)).isNone) = [] := by
      apply List.filter_eq_nil_iff.mpr
      intro k hk
      have h := hsome1 k hk
      rcases ho : (fetch for_value fetcher keys (some n) s).state.entries (n, k) with _ | l
      · rw [ho] at h
        exact absurd h (by simp)
      · simp
    have hmiss2 : (fetch_scan (some n) keys
        (fetch for_value fetcher keys (some n) s).state).2.1 = [] :=
      hscan2.2.trans hfil2
    have hr2 : fetch for_value fetcher keys (some n)
        (fetch for_value fetcher keys (some n) s).state =
        { values := (fetch_scan (some n) keys
            (fetch for_value fetcher keys (some n) s).state).1,
          misses := [],
          state := (fetch_scan (some n) keys
            (fetch for_value fetcher keys (some n) s).state).2.2 } := by
      generalize hS : (fetch for_value fetcher keys (some n) s).state = S at hmiss2 ⊢
      simp only [fetch, hmiss2]
      rfl
    refine ⟨by rw [hr2], ?_, hsome1⟩
    rw [hr2]
    simp only
    rw [hscan2.1]
    have hv1 : (fetch for_value fetcher keys (some n) s).values =
        (fetch_scan (some n) keys s).1 ++
          ((keys.filter fun k => (s.entries (n, k)).isNone).flatMap fun k =>
            (fetcher k n).getD []) := by
      rw [hr1]
    rw [hv1, hscan.1, ← Multiset.coe_add]
    rw [flatMap_coe_split
      (fun k => ((fetch for_value fetcher keys (some n) s).state.entries (n, k)).getD [])
      (fun k => (s.entries (n, k)).getD [])
      (fun k => if (s.entries (n, k)).isNone = true
        then (↑(((keys.filter fun k => (s.entries (n, k)).isNone).flatMap fun k =>
          (fetcher k n).getD []).filter fun v => decide (k = for_value v)) : Multiset V)
        else 0)
      keys ?_]
    · congr 1
      rw [sum_map_filter_support _ (fun k => (s.entries (n, k)).isNone) keys ?_]
      · have hmapc : List.map (fun k => if (s.entries (n, k)).isNone = true
            then (↑(((keys.filter fun k => (s.entries (n, k)).isNone).flatMap fun k =>
              (fetcher k n).getD []).filter fun v => decide (k = for_value v)) : Multiset V)
            else 0) (keys.filter fun k => (s.entries (n, k)).isNone) =
            List.map (fun k =>
              (↑(((keys.filter fun k => (s.entries (n, k)).isNone).flatMap fun k =>
                (fetcher k n).getD []).filter fun v => decide (k = for_value v)) : Multiset V))
              (keys.filter fun k => (s.entries (n, k)).isNone) := by
          apply List.map_congr_left
          intro k hkm
          rw [if_pos (List.mem_filter.mp hkm).2]
        rw [hmapc]
        exact sum_map_filter_self for_value _ _ hndm hcov
      · intro k _ hfalse
        rw [if_neg (by simp [hfalse])]
    · intro k hk
      beta_reduce
      rw [hentries k hk]
      by_cases hNone : (s.entries (n, k)).isNone = true
      · rw [if_pos hNone, if_pos hNone]
        have hnone' : s.entries (n, k) = none := by
          rcases ho : s.entries (n, k) with _ | l
          · rfl
          · rw [ho] at hNone
            exact absurd hNone (by simp)
        rw [hnone']
        simp
      · rw [if_neg hNone, if_neg hNone]
        simp

/-- C8 witness: concrete double fetch of the distinct keys `[0, 1]` at block
`1` on an empty cache with an own-key fetcher. -/
theorem claim_C8_witness :
    (fetch (fun v : ℕ => v) fetcher_c8 [0, 1] (some 1)
        (fetch (fun v : ℕ => v) fetcher_c8 [0, 1] (some 1) mutexed_c8).state).misses = []
    ∧ (↑((fetch (fun v : ℕ => v) fetcher_c8 [0, 1] (some 1)
          (fetch (fun v : ℕ => v) fetcher_c8 [0, 1] (some 1) mutexed_c8).state).values) :
        Multiset ℕ) =
        ↑((fetch (fun v : ℕ => v) fetcher_c8 [0, 1] (some 1) mutexed_c8).values)
    ∧ ∀ k ∈ ([0, 1] : List ℕ),
        ((fetch (fun v : ℕ => v) fetcher_c8 [0, 1] (some 1) mutexed_c8).state.entries
          (1, k)).isSome = true :=
  claim_C8 (fun v => v) fetcher_c8 [0, 1] 1 mutexed_c8 (by decide)
    (fun k b v hv => by simpa [fetcher_c8] using hv)

namespace Alerter

/-- Open order as seen by the alerter (crates/alerter/src/main.rs): only the
fields the alerter reads are kept — the uid used for matching across ticks
and the two class flags used by the solvable-orders filter. -/
structure Order where
  uid : ℕ
  is_liquidity_order : Bool
  partially_fillable : Bool

/-- Order status returned by the orderbook api for a closed order. -/
inductive OrderStatus where
  | Open
  | Fulfilled
  | Cancelled
  | Expired
  deriving DecidableEq

/-- AlertConfig (crates/alerter/src/main.rs lines 155-162); durations in
whole seconds. -/
structure AlertConfig where
  time_without_trade : ℕ
  min_order_solvable_time : ℕ
  min_alert_interval : ℕ

/-- Mutable alerter state (crates/alerter/src/main.rs lines 144-153);
Instants are modelled as a ℕ-valued clock sampled once per tick. -/
structure AlerterState where
  config : AlertConfig
  last_observed_trade : ℕ
  last_alert : Option ℕ
  open_orders : List (Order × Option ℕ)

/-- update_open_orders (lines 190-231): refresh the open-order list from the
solvable-orders endpoint (dropping liquidity and partially-fillable orders),
carrying over each order's matchable-since timestamp by uid; if any order
open last tick but absent now reports status Fulfilled, record a trade
observation at the current clock. -/
def update_open_orders (solvable : List Order) (status : ℕ → OrderStatus)
    (now : ℕ) (s : AlerterState) : AlerterState :=
  let orders := (solvable.filter fun o =>
      !o.is_liquidity_order && !o.partially_fillable).map fun o =>
    (o, (s.open_orders.find? fun p => p.1.uid == o.uid).bind fun p => p.2)
  let closed := s.open_orders.filter fun p => orders.all fun q => q.1.uid != p.1.uid
  let observed := closed.any fun p => status p.1.uid == OrderStatus.Fulfilled
  { s with
    open_orders := orders,
    last_observed_trade := if observed then now else s.last_observed_trade }

/-- matchable_orders (lines 292-311): for each open order ask the 0x oracle
whether it can be settled; if so, start (get_or_insert) its matchable-since
timestamp and report how long it has been matchable, otherwise clear the
timestamp. Returns the reported list and the updated open-order list. -/
def matchable_orders (can_be_settled : Order → Bool) (now : ℕ)
    (orders : List (Order × Option ℕ)) :
    List (Order × ℕ) × List (Order × Option ℕ) :=
  (orders.filterMap fun p =>
      if can_be_settled p.1 then some (p.1, now - p.2.getD now) else none,
    orders.map fun p =>
      if can_be_settled p.1 then (p.1, some (p.2.getD now)) else (p.1, none))

/-- update (lines 233-290): one alerter tick. Refresh open orders, query
matchability, then: if a trade was observed within time_without_trade,
clear every matchable-since timestamp and return without alerting; else if
some order has been matchable longer than min_order_solvable_time, alert
unless the previous alert is younger than min_alert_interval. The Bool
result records whether an alert was raised this tick. -/
def update (solvable : List Order) (status : ℕ → OrderStatus)
    (can_be_settled : Order → Bool) (now : ℕ) (s : AlerterState) :
    AlerterState × Bool :=
  let s1 := update_open_orders solvable status now s
  let m := matchable_orders can_be_settled now s1.open_orders
  let s2 := { s1 with open_orders := m.2 }
  if now - s2.last_observed_trade ≤ s2.config.time_without_trade then
    ({ s2 with open_orders := s2.open_orders.map fun p => (p.1, none) }, false)
  else
    match m.1.find? fun q => decide (s2.config.min_order_solvable_time < q.2) with
    | some _ =>
      (match s2.last_alert with
        | none => ({ s2 with last_alert := some now }, true)
        | some t =>
          if s2.config.min_alert_interval ≤ now - t then
            ({ s2 with last_alert := some now }, true)
          else (s2, false))
    | none => (s2, false)

end Alerter

/-- C9: for every Alerter::update tick in which now − last_observed_trade (as
set by this tick's update_open_orders) is at most time_without_trade, the tick
raises no alert and ends with every open order's matchable-since timestamp
cleared to None — even for orders the same tick's matchability query found
matchable. -/
theorem claim_C9 (solvable : List Alerter.Order) (status : ℕ → Alerter.OrderStatus)
    (can_be_settled : Alerter.Order → Bool) (now : ℕ) (s : Alerter.AlerterState)
    (h : now - (Alerter.update_open_orders solvable status now s).last_observed_trade ≤
      s.config.time_without_trade) :
    (Alerter.update solvable status can_be_settled now s).2 = false
    ∧ ∀ p ∈ (Alerter.update solvable status can_be_settled now s).1.open_orders,
        p.2 = none := by
  simp only [Alerter.update]
  have hcfg : (Alerter.update_open_orders solvable status now s).config = s.config := rfl
  rw [hcfg, if_pos h]
  refine ⟨rfl, ?_⟩
  intro p hp
  rcases List.mem_map.mp hp with ⟨q, _, rfl⟩
  rfl

/-- Solvable order for the C9 witness: the S7 scenario's matchable order. -/
def order_c9 : Alerter.Order :=
  { uid := 1, is_liquidity_order := false, partially_fillable := false }

/-- Alerter state for the C9 witness: default config (600 s, 180 s, 1800 s),
trade observed at t = 0, no prior alert, no open orders yet. -/
def alerter_c9 : Alerter.AlerterState :=
  { config :=
      { time_without_trade := 600, min_order_solvable_time := 180,
        min_alert_interval := 1800 },
    last_observed_trade := 0,
    last_alert := none,
    open_orders := [] }

/-- C9 witness: the spec's S7 scenario — time_without_trade = 600 s, trade at
t = 0, tick at t = 300 s with one matchable order: no alert and the order's
matchable-since timestamp is None. -/
theorem claim_C9_witness :
    (Alerter.update [order_c9] (fun _ => Alerter.OrderStatus.Fulfilled)
      (fun _ => true) 300 alerter_c9).2 = false
    ∧ ∀ p ∈ (Alerter.update [order_c9] (fun _ => Alerter.OrderStatus.Fulfilled)
        (fun _ => true) 300 alerter_c9).1.open_orders, p.2 = none :=
  claim_C9 [order_c9] (fun _ => Alerter.OrderStatus.Fulfilled) (fun _ => true)
    300 alerter_c9 (by decide)
